import Mathlib

/-!
Verification development for the WTF embedding asset pipeline
(`scripts/prepare_glove.py` and `scripts/embed_commands.py`).

The Python sources are shallowly embedded:
* text is modelled as Lean `String` / `List Char`;
* Python `float` arithmetic is modelled with exact rationals `ℚ`
  (the claims under scrutiny are about the algebraic algorithm, which in
  the source is the plain sum-then-divide loop, not about rounding);
* byte streams are `List Nat` with every byte `< 256`; an f32 vector
  component appearing in a binary stream is modelled by its 32-bit
  pattern, a `Nat < 2^32`, serialized as 4 little-endian bytes
  (CPython `struct` pack/unpack of an f32 bit pattern round-trips);
* fallible operations return `Except`.
-/

namespace WTF

/-! ## Constants (both scripts) -/

/-- `VECTOR_DIM = 100` in both scripts. -/
def VECTOR_DIM : Nat := 100

/-- `TOP_K_WORDS = 100000` in `prepare_glove.py`. -/
def TOP_K_WORDS : Nat := 100000

/-! ## Tokenizer (`embed_commands.tokenize`)

Python: lowercase, `re.sub(r'[^a-z0-9\s]', ' ', text)`, `str.split()`,
keep tokens of length ≥ 2.  Character-level lowercasing is modelled for
ASCII `A`–`Z`; Python's full-Unicode `str.lower` differs only on a few
non-ASCII codepoints (for example U+212A), every other non-ASCII character
is replaced by a space by the substitution step on both sides, so the
outputs agree on all inputs the claims exercise.  The whitespace class is
the ASCII core of Python's; any character it omits is turned into `' '`
by the substitution and acts as a separator either way, leaving the token
list unchanged. -/

/-- ASCII lowercasing of a character, after which `re.sub` sees the text. -/
def pyLowerChar (c : Char) : Char :=
  if 'A' ≤ c ∧ c ≤ 'Z' then Char.ofNat (c.toNat + 32) else c

/-- Membership in the kept class `[a-z0-9]` of the regex. -/
def keepChar (c : Char) : Bool :=
  ('a' ≤ c && c ≤ 'z') || ('0' ≤ c && c ≤ '9')

/-- ASCII whitespace, the common core of the regex class `\s` and of
`str.split()`'s separator set. -/
def pyIsSpace (c : Char) : Bool :=
  c == ' ' || c == '\t' || c == '\n' || c.toNat == 11 || c.toNat == 12 || c.toNat == 13

/-- The substitution `re.sub(r'[^a-z0-9\s]', ' ', text)`. -/
def subSpecial (cs : List Char) : List Char :=
  cs.map (fun c => if keepChar c || pyIsSpace c then c else ' ')

/-- Helper of `pySplit`: accumulates the current token (reversed). -/
def splitAux : List Char → List Char → List String
  | [], cur => if cur = [] then [] else [String.mk cur.reverse]
  | c :: rest, cur =>
      if pyIsSpace c then
        if cur = [] then splitAux rest []
        else String.mk cur.reverse :: splitAux rest []
      else splitAux rest (c :: cur)

/-- Python `str.split()` (split on whitespace runs, no empty tokens). -/
def pySplit (cs : List Char) : List String := splitAux cs []

/-- `embed_commands.tokenize`. -/
def tokenize (text : String) : List String :=
  if text = "" then []
  else
    let lowered := text.data.map pyLowerChar
    let subbed := subSpecial lowered
    let tokens := pySplit subbed
    tokens.filter (fun t => 2 ≤ t.length)

/-! ## Command records and `compute_embedding` (`embed_commands.py`)

A command record is the YAML mapping restricted to the fields the
embedding generator reads; `none` models an absent key (Python
`dict.get` returning `None`), and Python truthiness of the retrieved
value gates each field. The pass-through metadata fields
(`niche`, `platform`, `pipeline`) are never read by `compute_embedding`
and are omitted from the model. -/

structure CommandRecord where
  command : Option String
  description : Option String
  keywords : Option (List String)
deriving DecidableEq

/-- Texts contributed by a truthy string field
(`if command.get('command'): texts.append(...)`). -/
def textsOfStr : Option String → List String
  | some s => if s ≠ "" then [s] else []
  | none => []

/-- Texts contributed by a truthy keyword list
(`if command.get('keywords'): texts.extend(...)`). -/
def textsOfKeywords : Option (List String) → List String
  | some ks => if ks ≠ [] then ks else []
  | none => []

/-- The `texts` list built by the three `if` blocks of `compute_embedding`. -/
def gatherTexts (command : CommandRecord) : List String :=
  textsOfStr command.command ++ textsOfStr command.description
    ++ textsOfKeywords command.keywords

/-- The `all_tokens` accumulation loop
(`for text in texts: all_tokens.extend(tokenize(str(text)))`). -/
def all_tokens (command : CommandRecord) : List String :=
  (gatherTexts command).foldl (fun acc t => acc ++ tokenize t) []

/-- Dictionary lookup (`token in word_vectors` / `word_vectors[token]`). -/
def dictLookup : List (String × List ℚ) → String → Option (List ℚ)
  | [], _ => none
  | p :: ps, k => if p.1 = k then some p.2 else dictLookup ps k

/-- The `vectors` accumulation loop of `compute_embedding`. -/
def matched_vectors (command : CommandRecord) (word_vectors : List (String × List ℚ)) :
    List (List ℚ) :=
  (all_tokens command).foldl
    (fun acc t =>
      match dictLookup word_vectors t with
      | some v => acc ++ [v]
      | none => acc) []

/-- One pass of the inner summation loop
(`for i in range(VECTOR_DIM): embedding[i] += vec[i]`). -/
def addInto (e v : List ℚ) : List ℚ :=
  (List.range VECTOR_DIM).map (fun i => e.getD i 0 + v.getD i 0)

/-- The averaging tail of `compute_embedding`: sum the matched vectors into
a zero accumulator and divide by their number, or return the zero vector
when nothing matched. -/
def average_vectors (vectors : List (List ℚ)) : List ℚ :=
  if vectors = [] then List.replicate VECTOR_DIM 0
  else
    (vectors.foldl addInto (List.replicate VECTOR_DIM 0)).map
      (fun x => x / (vectors.length : ℚ))

/-- `embed_commands.compute_embedding`. -/
def compute_embedding (command : CommandRecord)
    (word_vectors : List (String × List ℚ)) : List ℚ :=
  average_vectors (matched_vectors command word_vectors)

/-- The token stream of a list of texts, concatenated in order
(the claim-side reading of the `all_tokens` loop). -/
def tokensOfTexts : List String → List String
  | [] => []
  | t :: ts => tokenize t ++ tokensOfTexts ts

/-! ## Binary vector-store codec

Byte-level model shared by `prepare_glove.save_binary_format` (writer)
and `embed_commands.load_glove_binary` (reader).  A store entry keeps the
word as its UTF-8 byte sequence and each of the 100 f32 components as its
32-bit pattern. -/

/-- One record of the binary vocabulary file. -/
structure BinEntry where
  word : List Nat
  vec : List Nat
deriving DecidableEq

/-- Little-endian bytes of a `u16` value (`struct.pack('<H', n)`). -/
def u16le (n : Nat) : List Nat := [n % 256, n / 256 % 256]

/-- Little-endian bytes of a `u32` value (`struct.pack('<I', n)`). -/
def u32le (n : Nat) : List Nat :=
  [n % 256, n / 256 % 256, n / 65536 % 256, n / 16777216 % 256]

/-- Bytes of a vector of f32 bit patterns (`struct.pack('<100f', *vector)`'s
payload), 4 little-endian bytes per component. -/
def vecBytes : List Nat → List Nat
  | [] => []
  | c :: cs => u32le c ++ vecBytes cs

/-- Errors raised while packing (`struct.error` of CPython `pack`). -/
inductive PackErr where
  | argOutOfRange
  | argCountMismatch
deriving DecidableEq

/-- `struct.pack('<H', n)`: fails when `n` does not fit a `u16`. -/
def pack_u16 (n : Nat) : Except PackErr (List Nat) :=
  if n ≤ 65535 then .ok (u16le n) else .error .argOutOfRange

/-- `struct.pack('<I', n)`: fails when `n` does not fit a `u32`. -/
def pack_u32 (n : Nat) : Except PackErr (List Nat) :=
  if n < 4294967296 then .ok (u32le n) else .error .argOutOfRange

/-- `struct.pack('<100f', *vector)`: fails when the argument count is not
exactly `VECTOR_DIM`. -/
def pack_f32x100 (v : List Nat) : Except PackErr (List Nat) :=
  if v.length = VECTOR_DIM then .ok (vecBytes v) else .error .argCountMismatch

/-- Bytes written for one entry by the loop body of `save_binary_format`. -/
def packEntry (e : BinEntry) : Except PackErr (List Nat) :=
  match pack_u16 e.word.length with
  | .error err => .error err
  | .ok lenBytes =>
    match pack_f32x100 e.vec with
    | .error err => .error err
    | .ok vb => .ok (lenBytes ++ e.word ++ vb)

/-- The `for word, vector in vectors.items()` loop of `save_binary_format`,
in dictionary (ingestion) order. -/
def packEntries : List BinEntry → Except PackErr (List Nat)
  | [] => .ok []
  | e :: es =>
    match packEntry e with
    | .error err => .error err
    | .ok b =>
      match packEntries es with
      | .error err => .error err
      | .ok bs => .ok (b ++ bs)

/-- `prepare_glove.save_binary_format`: `u32` vocabulary size followed by
the records. -/
def save_binary_format (store : List BinEntry) : Except PackErr (List Nat) :=
  match pack_u32 store.length with
  | .error err => .error err
  | .ok hdr =>
    match packEntries store with
    | .error err => .error err
    | .ok body => .ok (hdr ++ body)

/-- Errors raised while reading the binary file: `struct.error` from a
short `unpack` buffer, `UnicodeDecodeError` from `bytes.decode('utf-8')`. -/
inductive LoadBinErr where
  | structError
  | unicodeError
deriving DecidableEq

/-- `f.read(n)` at position `pos`: returns up to `n` bytes and the new
file position (advanced by the number of bytes actually read). -/
def fread (s : List Nat) (pos n : Nat) : List Nat × Nat :=
  let bs := (s.drop pos).take n
  (bs, pos + bs.length)

/-- `struct.unpack('<H', bs)`: requires a buffer of exactly 2 bytes. -/
def unpack_u16 : List Nat → Except LoadBinErr Nat
  | [a, b] => .ok (a + 256 * b)
  | _ => .error .structError

/-- `struct.unpack('<I', bs)`: requires a buffer of exactly 4 bytes. -/
def unpack_u32 : List Nat → Except LoadBinErr Nat
  | [a, b, c, d] => .ok (a + 256 * (b + 256 * (c + 256 * d)))
  | _ => .error .structError

/-- Decode consecutive 4-byte little-endian groups into bit patterns. -/
def parseF32s : List Nat → List Nat
  | b0 :: b1 :: b2 :: b3 :: rest =>
      (b0 + 256 * (b1 + 256 * (b2 + 256 * b3))) :: parseF32s rest
  | _ => []

/-- `struct.unpack('<100f', bs)`: requires a buffer of exactly
`VECTOR_DIM * 4` bytes. -/
def unpack_f32x100 (bs : List Nat) : Except LoadBinErr (List Nat) :=
  if bs.length = VECTOR_DIM * 4 then .ok (parseF32s bs) else .error .structError

/-- Continuation byte test of strict UTF-8. -/
def utf8Cont (c : Nat) : Bool := 128 ≤ c && c ≤ 191

/-- Strict UTF-8 validity of a byte sequence, as enforced by CPython
`bytes.decode('utf-8')` (overlong forms, surrogates and values beyond
U+10FFFF rejected). -/
def utf8Valid : List Nat → Bool
  | [] => true
  | b0 :: rest =>
    if b0 ≤ 127 then utf8Valid rest
    else if 194 ≤ b0 && b0 ≤ 223 then
      match rest with
      | b1 :: rest2 => utf8Cont b1 && utf8Valid rest2
      | [] => false
    else if b0 = 224 then
      match rest with
      | b1 :: b2 :: rest2 => (160 ≤ b1 && b1 ≤ 191) && utf8Cont b2 && utf8Valid rest2
      | _ => false
    else if (225 ≤ b0 && b0 ≤ 236) || b0 = 238 || b0 = 239 then
      match rest with
      | b1 :: b2 :: rest2 => utf8Cont b1 && utf8Cont b2 && utf8Valid rest2
      | _ => false
    else if b0 = 237 then
      match rest with
      | b1 :: b2 :: rest2 => (128 ≤ b1 && b1 ≤ 159) && utf8Cont b2 && utf8Valid rest2
      | _ => false
    else if b0 = 240 then
      match rest with
      | b1 :: b2 :: b3 :: rest2 =>
          (144 ≤ b1 && b1 ≤ 191) && utf8Cont b2 && utf8Cont b3 && utf8Valid rest2
      | _ => false
    else if 241 ≤ b0 && b0 ≤ 243 then
      match rest with
      | b1 :: b2 :: b3 :: rest2 =>
          utf8Cont b1 && utf8Cont b2 && utf8Cont b3 && utf8Valid rest2
      | _ => false
    else if b0 = 244 then
      match rest with
      | b1 :: b2 :: b3 :: rest2 =>
          (128 ≤ b1 && b1 ≤ 143) && utf8Cont b2 && utf8Cont b3 && utf8Valid rest2
      | _ => false
    else false

/-- `bytes.decode('utf-8')`: the word keeps its byte representation in this
model; invalid bytes raise `UnicodeDecodeError`. -/
def pyDecodeUtf8 (bs : List Nat) : Except LoadBinErr (List Nat) :=
  if utf8Valid bs then .ok bs else .error .unicodeError

/-- Python dict assignment `vectors[word] = vector`: update in place when
the key exists (keeping its position), append otherwise. -/
def dictInsert : List BinEntry → List Nat → List Nat → List BinEntry
  | [], w, v => [⟨w, v⟩]
  | e :: es, w, v => if e.word = w then ⟨w, v⟩ :: es else e :: dictInsert es w v

/-- The loop body of `load_glove_binary`: read a `u16` word length, the
word bytes, and the 100-component f32 vector, from position `pos`. -/
def readRecord (s : List Nat) (pos : Nat) : Except LoadBinErr (BinEntry × Nat) :=
  match unpack_u16 (fread s pos 2).1 with
  | .error e => .error e
  | .ok wl =>
    let pos1 := (fread s pos 2).2
    match pyDecodeUtf8 (fread s pos1 wl).1 with
    | .error e => .error e
    | .ok word =>
      let pos2 := (fread s pos1 wl).2
      match unpack_f32x100 (fread s pos2 (VECTOR_DIM * 4)).1 with
      | .error e => .error e
      | .ok vec => .ok (⟨word, vec⟩, (fread s pos2 (VECTOR_DIM * 4)).2)

/-- The `for i in range(vocab_size)` loop of `load_glove_binary`. -/
def loadRecords (s : List Nat) : Nat → Nat → List BinEntry →
    Except LoadBinErr (List BinEntry)
  | _, 0, acc => .ok acc
  | pos, n + 1, acc =>
    match readRecord s pos with
    | .error e => .error e
    | .ok (ent, pos') => loadRecords s pos' n (dictInsert acc ent.word ent.vec)

/-- `embed_commands.load_glove_binary`. -/
def load_glove_binary (s : List Nat) : Except LoadBinErr (List BinEntry) :=
  match unpack_u32 (fread s 0 4).1 with
  | .error e => .error e
  | .ok vocab => loadRecords s (fread s 0 4).2 vocab []

/-- Raw bytes of one record, used to describe successful serialization. -/
def entryBytesRaw (e : BinEntry) : List Nat :=
  u16le e.word.length ++ e.word ++ vecBytes e.vec

/-- Raw bytes of the record section. -/
def entriesBytes : List BinEntry → List Nat
  | [] => []
  | e :: es => entryBytesRaw e ++ entriesBytes es

/-- Raw bytes of the whole file. -/
def storeBytes (store : List BinEntry) : List Nat :=
  u32le store.length ++ entriesBytes store

/-- Wellformedness of one store record: valid UTF-8 word fitting the `u16`
length field, a vector of exactly `VECTOR_DIM` components, each an f32 bit
pattern. -/
def WFEntry (e : BinEntry) : Prop :=
  utf8Valid e.word = true ∧ e.word.length ≤ 65535 ∧
    e.vec.length = VECTOR_DIM ∧ ∀ c ∈ e.vec, c < 4294967296

/-- Wellformedness of a store: wellformed records, distinct words (a
Python dict cannot hold duplicate keys), and a vocabulary size that fits
the `u32` header. -/
def WFStore (store : List BinEntry) : Prop :=
  (∀ e ∈ store, WFEntry e) ∧ (store.map (·.word)).Nodup ∧
    store.length < 4294967296

/-! ## Vector source reducer (`prepare_glove.load_glove_vectors`)

One corpus line is `word <floats>`.  Vector values live in `ℚ`. -/

/-- Errors that abort the reducer: `IndexError` from `parts[0]` on an
empty line, `ValueError` from `float(x)` on a non-numeric token. -/
inductive ReduceErr where
  | indexError
  | valueError
deriving DecidableEq

/-- `str.strip()` restricted to the whitespace the corpus uses. -/
def pyStrip (s : String) : String :=
  String.mk (((s.data.dropWhile pyIsSpace).reverse.dropWhile pyIsSpace).reverse)

/-- Decimal digit test. -/
def isDigit (c : Char) : Bool := '0' ≤ c && c ≤ '9'

/-- Value of a digit string. -/
def natOfDigits (cs : List Char) : Nat :=
  cs.foldl (fun a c => 10 * a + (c.toNat - 48)) 0

/-- Python `float(s)`, modelled on the grammar the claims exercise:
optional sign, decimal digits, optional fractional part.  Exponents and
`inf`/`nan` spellings are not modelled; every string outside the grammar
yields `none`, as `float` raises `ValueError` there. -/
def pyFloat (s : String) : Option ℚ :=
  let signed : Bool × List Char :=
    match s.data with
    | '-' :: r => (true, r)
    | '+' :: r => (false, r)
    | cs => (false, cs)
  let intPart := signed.2.takeWhile isDigit
  let rest := signed.2.dropWhile isDigit
  let withSign : ℚ → ℚ := fun q => if signed.1 then -q else q
  match rest with
  | [] => if intPart = [] then none else some (withSign (natOfDigits intPart))
  | '.' :: frac =>
      if frac.all isDigit && (intPart ≠ [] || frac ≠ []) then
        some (withSign
          ((natOfDigits intPart : ℚ) + (natOfDigits frac : ℚ) / (10 ^ frac.length)))
      else none
  | _ => none

/-- The `[float(x) for x in parts[1:]]` comprehension: the first
non-numeric token raises `ValueError`. -/
def parseFloats : List String → Except ReduceErr (List ℚ)
  | [] => .ok []
  | s :: ss =>
    match pyFloat s with
    | none => .error .valueError
    | some q =>
      match parseFloats ss with
      | .error e => .error e
      | .ok qs => .ok (q :: qs)

/-- `parts = line.strip().split(); word = parts[0];
vector = [float(x) for x in parts[1:]]`. -/
def parseLineE (line : String) : Except ReduceErr (String × List ℚ) :=
  match pySplit (pyStrip line).data with
  | [] => .error .indexError
  | w :: rest =>
    match parseFloats rest with
    | .error e => .error e
    | .ok vec => .ok (w, vec)

/-- Python dict assignment for the rational-valued store. -/
def dictInsertQ : List (String × List ℚ) → String → List ℚ →
    List (String × List ℚ)
  | [], w, v => [(w, v)]
  | p :: ps, w, v => if p.1 = w then (w, v) :: ps else p :: dictInsertQ ps w v

/-- The `for i, line in enumerate(f)` loop of `load_glove_vectors`:
`i` counts every line read; the loop breaks once `i >= top_k`; a parsed
line whose vector is not exactly `VECTOR_DIM` wide is skipped. -/
def load_glove_vectors_loop (top_k : Nat) :
    List String → Nat → List (String × List ℚ) →
    Except ReduceErr (List (String × List ℚ))
  | [], _, acc => .ok acc
  | line :: rest, i, acc =>
    if top_k ≤ i then .ok acc
    else
      match parseLineE line with
      | .error e => .error e
      | .ok (w, vec) =>
        if vec.length ≠ VECTOR_DIM then load_glove_vectors_loop top_k rest (i + 1) acc
        else load_glove_vectors_loop top_k rest (i + 1) (dictInsertQ acc w vec)

/-- `prepare_glove.load_glove_vectors`. -/
def load_glove_vectors (corpus : List String) (top_k : Nat) :
    Except ReduceErr (List (String × List ℚ)) :=
  load_glove_vectors_loop top_k corpus 0 []

/-- A corpus line the spec calls valid: it parses without raising and its
vector has exactly `VECTOR_DIM` components. -/
def lineIsValid (line : String) : Bool :=
  match parseLineE line with
  | .ok (_, v) => v.length = VECTOR_DIM
  | .error _ => false

/-- The store entry of a parseable line (helper for stating theorems). -/
def lineEntry (line : String) : String × List ℚ :=
  match parseLineE line with
  | .ok p => p
  | .error _ => ("", [])

/-- A corpus line with `VECTOR_DIM` components all equal to `1`
(concrete valid line used in witnesses and counterexamples). -/
def mkValidLine (w : String) : String :=
  w ++ String.join (List.replicate VECTOR_DIM " 1")

/-! ## Embedding generation run and table codec
(`embed_commands.main` step 3 and `save_embeddings`)

`save_embeddings` packs f32 values produced by the averaging; the f32
encoding of a rational is abstracted as a parameter `enc` producing the
4 bytes `struct.pack('<f', x)` would produce (the theorems hold for every
such encoding). -/

/-- The `embeddings.append(compute_embedding(cmd, word_vectors))` loop of
`main`. -/
def main_embeddings (cmds : List CommandRecord)
    (word_vectors : List (String × List ℚ)) : List (List ℚ) :=
  cmds.foldl (fun acc c => acc ++ [compute_embedding c word_vectors]) []

/-- Byte payload of one embedding under the f32 encoding `enc`. -/
def qvecBytes (enc : ℚ → List Nat) : List ℚ → List Nat
  | [] => []
  | q :: qs => enc q ++ qvecBytes enc qs

/-- `struct.pack(f'<100f', *embedding)`: fails unless the embedding has
exactly `VECTOR_DIM` components. -/
def pack_qvec (enc : ℚ → List Nat) (e : List ℚ) : Except PackErr (List Nat) :=
  if e.length = VECTOR_DIM then .ok (qvecBytes enc e) else .error .argCountMismatch

/-- The `for embedding in embeddings` write loop of `save_embeddings`. -/
def packEmbList (enc : ℚ → List Nat) : List (List ℚ) → Except PackErr (List Nat)
  | [] => .ok []
  | e :: es =>
    match pack_qvec enc e with
    | .error err => .error err
    | .ok b =>
      match packEmbList enc es with
      | .error err => .error err
      | .ok bs => .ok (b ++ bs)

/-- `embed_commands.save_embeddings`: `u32` count, `u32` dimension, then
the embeddings in order. -/
def save_embeddings (enc : ℚ → List Nat) (embeddings : List (List ℚ)) :
    Except PackErr (List Nat) :=
  match pack_u32 embeddings.length with
  | .error err => .error err
  | .ok h1 =>
    match pack_u32 VECTOR_DIM with
    | .error err => .error err
    | .ok h2 =>
      match packEmbList enc embeddings with
      | .error err => .error err
      | .ok body => .ok (h1 ++ h2 ++ body)

/-- Raw byte payload of an embedding list (used to describe the output of
`packEmbList` on success). -/
def embsBytes (enc : ℚ → List Nat) : List (List ℚ) → List Nat
  | [] => []
  | e :: es => qvecBytes enc e ++ embsBytes enc es

/-! ## Lemmas: tokenizer -/

theorem splitAux_chars (l : List Char) :
    ∀ cur, (∀ c ∈ l, keepChar c || pyIsSpace c) → (∀ c ∈ cur, keepChar c) →
      ∀ t ∈ splitAux l cur, ∀ c ∈ t.data, keepChar c := by
  induction l with
  | nil =>
    intro cur _ hcur t ht c hc
    simp only [splitAux] at ht
    split at ht
    · simp at ht
    · simp only [List.mem_singleton] at ht
      subst ht
      simp only [String.data] at hc
      exact hcur c (List.mem_reverse.mp hc)
  | cons a l ih =>
    intro cur hl hcur t ht c hc
    simp only [splitAux] at ht
    have hal : keepChar a || pyIsSpace a := hl a (by simp)
    by_cases ha : pyIsSpace a
    · rw [if_pos ha] at ht
      split at ht
      · exact ih [] (fun c hc => hl c (by simp [hc])) (by simp) t ht c hc
      · rcases List.mem_cons.mp ht with h | h
        · subst h
          simp only [String.data] at hc
          exact hcur c (List.mem_reverse.mp hc)
        · exact ih [] (fun c hc => hl c (by simp [hc])) (by simp) t h c hc
    · rw [if_neg ha] at ht
      refine ih (a :: cur) (fun c hc => hl c (by simp [hc])) ?_ t ht c hc
      intro c hc
      rcases List.mem_cons.mp hc with h | h
      · subst h
        cases hk : keepChar c
        · rw [hk] at hal
          simp only [Bool.false_or] at hal
          exact absurd hal ha
        · rfl
      · exact hcur c h

theorem subSpecial_chars (cs : List Char) :
    ∀ c ∈ subSpecial cs, keepChar c || pyIsSpace c := by
  intro c hc
  simp only [subSpecial, List.mem_map] at hc
  obtain ⟨x, _, hx⟩ := hc
  by_cases h : keepChar x || pyIsSpace x
  · rw [if_pos h] at hx; subst hx; exact h
  · rw [if_neg h] at hx; subst hx; rfl

/-- Every token of `tokenize` has length at least 2 and only characters
in `[a-z0-9]`. -/
theorem tokenize_token_shape (s : String) (t : String) (ht : t ∈ tokenize s) :
    2 ≤ t.length ∧ ∀ c ∈ t.data, keepChar c := by
  unfold tokenize at ht
  split at ht
  · simp at ht
  · simp only [List.mem_filter, decide_eq_true_eq] at ht
    refine ⟨ht.2, ?_⟩
    exact splitAux_chars _ [] (subSpecial_chars _) (by simp) t ht.1

/-! ## Lemmas: embedding computation -/

theorem getD_map_range (f : Nat → ℚ) {n i : Nat} (h : i < n) :
    ((List.range n).map f).getD i 0 = f i := by
  rw [List.getD_eq_getElem?_getD, List.getElem?_map, List.getElem?_range h]
  rfl

theorem getD_map_div (l : List ℚ) (q : ℚ) {i : Nat} (h : i < l.length) :
    (l.map (fun x => x / q)).getD i 0 = l.getD i 0 / q := by
  rw [List.getD_eq_getElem?_getD, List.getElem?_map,
    List.getElem?_eq_getElem h, List.getD_eq_getElem?_getD,
    List.getElem?_eq_getElem h]
  rfl

theorem addInto_length (e v : List ℚ) : (addInto e v).length = VECTOR_DIM := by
  simp [addInto]

theorem addInto_getD (e v : List ℚ) {i : Nat} (h : i < VECTOR_DIM) :
    (addInto e v).getD i 0 = e.getD i 0 + v.getD i 0 :=
  getD_map_range _ h

theorem foldl_addInto (vecs : List (List ℚ)) :
    ∀ e : List ℚ, e.length = VECTOR_DIM →
      (vecs.foldl addInto e).length = VECTOR_DIM ∧
      ∀ i, i < VECTOR_DIM →
        (vecs.foldl addInto e).getD i 0
          = e.getD i 0 + ((vecs.map (fun v => v.getD i 0)).sum) := by
  induction vecs with
  | nil => intro e he; simp [he]
  | cons v vs ih =>
    intro e he
    simp only [List.foldl_cons, List.map_cons, List.sum_cons]
    obtain ⟨hlen, hval⟩ := ih (addInto e v) (addInto_length e v)
    refine ⟨hlen, fun i hi => ?_⟩
    rw [hval i hi, addInto_getD e v hi]
    ring

theorem foldl_append_tokenize (l : List String) :
    ∀ acc : List String,
      l.foldl (fun acc t => acc ++ tokenize t) acc = acc ++ tokensOfTexts l := by
  induction l with
  | nil => intro acc; simp [tokensOfTexts]
  | cons t ts ih => intro acc; simp [tokensOfTexts, ih, List.append_assoc]

theorem foldl_matched (wv : List (String × List ℚ)) (toks : List String) :
    ∀ acc : List (List ℚ),
      toks.foldl
        (fun acc t =>
          match dictLookup wv t with
          | some v => acc ++ [v]
          | none => acc) acc
        = acc ++ toks.filterMap (fun t => dictLookup wv t) := by
  induction toks with
  | nil => intro acc; simp
  | cons t ts ih =>
    intro acc
    simp only [List.foldl_cons, List.filterMap_cons]
    cases h : dictLookup wv t <;> simp [h, ih, List.append_assoc]

theorem all_tokens_eq (c : CommandRecord) :
    all_tokens c = tokensOfTexts (textsOfStr c.command)
      ++ tokensOfTexts (textsOfStr c.description)
      ++ tokensOfTexts (textsOfKeywords c.keywords) := by
  have dist : ∀ a b : List String,
      tokensOfTexts (a ++ b) = tokensOfTexts a ++ tokensOfTexts b := by
    intro a b
    induction a with
    | nil => simp [tokensOfTexts]
    | cons x xs ih => simp [tokensOfTexts, ih]
  rw [all_tokens, foldl_append_tokenize, gatherTexts, dist, dist]
  simp

theorem matched_vectors_eq (c : CommandRecord) (wv : List (String × List ℚ)) :
    matched_vectors c wv = (all_tokens c).filterMap (fun t => dictLookup wv t) := by
  rw [matched_vectors, foldl_matched]
  simp

theorem average_vectors_length (vectors : List (List ℚ)) :
    (average_vectors vectors).length = VECTOR_DIM := by
  unfold average_vectors
  split
  · simp
  · rw [List.length_map, (foldl_addInto vectors (List.replicate VECTOR_DIM 0) (by simp)).1]

theorem compute_embedding_length (c : CommandRecord) (wv : List (String × List ℚ)) :
    (compute_embedding c wv).length = VECTOR_DIM :=
  average_vectors_length _

theorem average_vectors_nonempty (vectors : List (List ℚ)) (hne : vectors ≠ [])
    {i : Nat} (hi : i < VECTOR_DIM) :
    (average_vectors vectors).getD i 0
      = ((vectors.map (fun v => v.getD i 0)).sum) / (vectors.length : ℚ) := by
  unfold average_vectors
  rw [if_neg hne]
  obtain ⟨hlen, hval⟩ := foldl_addInto vectors (List.replicate VECTOR_DIM 0) (by simp)
  rw [getD_map_div _ _ (by rw [hlen]; exact hi), hval i hi]
  simp

/-! ## Claim theorems: embedding computation -/

/-- C1: the embedding generator builds the ordered token stream (command
tokens, then description tokens, then each keyword's tokens in list
order), keeps exactly the tokens that are keys of the store, and returns,
when the matched sequence is non-empty, the component-wise arithmetic mean
`sum(v[i] for v in vectors) / len(vectors)` at every dimension index
`i < 100`, and the all-zero vector of dimension 100 otherwise.  (Under the
store invariant `hwf`, `v.getD i 0` is the component `v[i]`.) -/
theorem compute_embedding_is_mean (c : CommandRecord)
    (wv : List (String × List ℚ))
    (hwf : ∀ p ∈ wv, (p.2 : List ℚ).length = VECTOR_DIM) :
    all_tokens c = tokensOfTexts (textsOfStr c.command)
        ++ tokensOfTexts (textsOfStr c.description)
        ++ tokensOfTexts (textsOfKeywords c.keywords)
    ∧ matched_vectors c wv = (all_tokens c).filterMap (fun t => dictLookup wv t)
    ∧ (compute_embedding c wv).length = VECTOR_DIM
    ∧ (matched_vectors c wv ≠ [] →
        ∀ i, i < VECTOR_DIM →
          (compute_embedding c wv).getD i 0
            = (((matched_vectors c wv).map (fun v => v.getD i 0)).sum)
                / ((matched_vectors c wv).length : ℚ))
    ∧ (matched_vectors c wv = [] →
        compute_embedding c wv = List.replicate VECTOR_DIM 0) := by
  refine ⟨all_tokens_eq c, matched_vectors_eq c wv,
    compute_embedding_length c wv, fun hne i hi => ?_, fun hemp => ?_⟩
  · exact average_vectors_nonempty _ hne hi
  · rw [compute_embedding, hemp, average_vectors, if_pos rfl]

/-- C1 witness: a record whose command is `"ab"` against a store holding
`"ab"`. -/
theorem compute_embedding_is_mean_witness :
    (∀ p ∈ [("ab", List.replicate 100 ((1 : ℕ) : ℚ))], (p.2 : List ℚ).length = VECTOR_DIM)
    ∧ (all_tokens ⟨some "ab", none, none⟩
        = tokensOfTexts (textsOfStr (some "ab")) ++ tokensOfTexts (textsOfStr none)
          ++ tokensOfTexts (textsOfKeywords none)
      ∧ matched_vectors ⟨some "ab", none, none⟩ [("ab", List.replicate 100 ((1 : ℕ) : ℚ))]
          = (all_tokens ⟨some "ab", none, none⟩).filterMap
              (fun t => dictLookup [("ab", List.replicate 100 ((1 : ℕ) : ℚ))] t)
      ∧ (compute_embedding ⟨some "ab", none, none⟩
            [("ab", List.replicate 100 ((1 : ℕ) : ℚ))]).length = VECTOR_DIM
      ∧ (matched_vectors ⟨some "ab", none, none⟩
            [("ab", List.replicate 100 ((1 : ℕ) : ℚ))] ≠ [] →
          ∀ i, i < VECTOR_DIM →
            (compute_embedding ⟨some "ab", none, none⟩
                [("ab", List.replicate 100 ((1 : ℕ) : ℚ))]).getD i 0
              = (((matched_vectors ⟨some "ab", none, none⟩
                    [("ab", List.replicate 100 ((1 : ℕ) : ℚ))]).map
                      (fun v => v.getD i 0)).sum)
                  / ((matched_vectors ⟨some "ab", none, none⟩
                      [("ab", List.replicate 100 ((1 : ℕ) : ℚ))]).length : ℚ))
      ∧ (matched_vectors ⟨some "ab", none, none⟩
            [("ab", List.replicate 100 ((1 : ℕ) : ℚ))] = [] →
          compute_embedding ⟨some "ab", none, none⟩
              [("ab", List.replicate 100 ((1 : ℕ) : ℚ))]
            = List.replicate VECTOR_DIM 0)) :=
  ⟨by decide, compute_embedding_is_mean ⟨some "ab", none, none⟩
      [("ab", List.replicate 100 ((1 : ℕ) : ℚ))] (by decide)⟩

/-- C6: embedding computation is deterministic — the output is a pure
function of the matched vector sequence (and hence of the record and the
store); two runs on equal inputs produce identical vectors. -/
theorem compute_embedding_deterministic (c₁ c₂ : CommandRecord)
    (wv₁ wv₂ : List (String × List ℚ))
    (h : matched_vectors c₁ wv₁ = matched_vectors c₂ wv₂) :
    compute_embedding c₁ wv₁ = compute_embedding c₂ wv₂ := by
  rw [compute_embedding, compute_embedding, h]

/-- C6 witness: two identical runs on a concrete record and store. -/
theorem compute_embedding_deterministic_witness :
    compute_embedding ⟨some "ab", none, none⟩ [("ab", [((1 : ℕ) : ℚ)])]
      = compute_embedding ⟨some "ab", none, none⟩ [("ab", [((1 : ℕ) : ℚ)])] :=
  compute_embedding_deterministic _ _ _ _ (by decide)

/-- C10: embedding computation is total over record shape — any absent,
empty or falsy field contributes no tokens (absent and empty are
interchangeable), no failure occurs, and the result always has exactly
`VECTOR_DIM = 100` components. -/
theorem compute_embedding_total_shape (c : CommandRecord)
    (wv : List (String × List ℚ)) :
    (compute_embedding c wv).length = VECTOR_DIM
    ∧ compute_embedding ⟨none, c.description, c.keywords⟩ wv
        = compute_embedding ⟨some "", c.description, c.keywords⟩ wv
    ∧ compute_embedding ⟨c.command, none, c.keywords⟩ wv
        = compute_embedding ⟨c.command, some "", c.keywords⟩ wv
    ∧ compute_embedding ⟨c.command, c.description, none⟩ wv
        = compute_embedding ⟨c.command, c.description, some []⟩ wv := by
  refine ⟨compute_embedding_length c wv, ?_, ?_, ?_⟩ <;>
    simp [compute_embedding, matched_vectors, all_tokens, gatherTexts,
      textsOfStr, textsOfKeywords]

/-! ## Claim theorems: tokenizer -/

/-- C7 counterexample: on `"Git-Log v2!!"` the tokenizer keeps `"v2"`
(length 2), so the claimed output `["git", "log"]` is wrong. -/
theorem tokenize_example_counterexample :
    tokenize "Git-Log v2!!" ≠ ["git", "log"] := by decide

/-- C7 (amended): the tokenizer lowercases, replaces characters outside
`[a-z0-9]` and whitespace by spaces, splits on whitespace runs and keeps
tokens of length ≥ 2, whose characters all lie in `[a-z0-9]`; on
`"Git-Log v2!!"` it returns `["git", "log", "v2"]` (the hyphen and `!!`
separate, produce no empty token, and `"v2"` is retained). -/
theorem tokenize_algorithm :
    tokenize "Git-Log v2!!" = ["git", "log", "v2"]
    ∧ ∀ s t, t ∈ tokenize s → 2 ≤ t.length ∧ ∀ c ∈ t.data, keepChar c :=
  ⟨by decide, fun s t ht => tokenize_token_shape s t ht⟩

/-- C7 witness: the shape facts instantiated on the example's first token. -/
theorem tokenize_algorithm_witness :
    ("git" ∈ tokenize "Git-Log v2!!")
    ∧ (2 ≤ "git".length ∧ ∀ c ∈ "git".data, keepChar c) :=
  ⟨by decide, tokenize_algorithm.2 "Git-Log v2!!" "git" (by decide)⟩

/-! ## Lemmas: vector source reducer -/

theorem lineIsValid_spec (l : String) (h : lineIsValid l = true) :
    ∃ w v, parseLineE l = .ok (w, v) ∧ v.length = VECTOR_DIM
      ∧ lineEntry l = (w, v) := by
  unfold lineIsValid at h
  cases hp : parseLineE l with
  | error e => rw [hp] at h; cases h
  | ok p =>
    obtain ⟨w, v⟩ := p
    rw [hp] at h
    exact ⟨w, v, rfl, of_decide_eq_true h, by simp [lineEntry, hp]⟩

theorem dictInsertQ_append (acc : List (String × List ℚ)) (w : String)
    (v : List ℚ) (h : ∀ p ∈ acc, p.1 ≠ w) :
    dictInsertQ acc w v = acc ++ [(w, v)] := by
  induction acc with
  | nil => rfl
  | cons p ps ih =>
    rw [dictInsertQ, if_neg (h p (by simp)), ih (fun q hq => h q (by simp [hq]))]
    rfl

theorem load_loop_take (top_k : Nat) (lines : List String) :
    ∀ i acc, load_glove_vectors_loop top_k lines i acc
      = load_glove_vectors_loop top_k (lines.take (top_k - i)) i acc := by
  induction lines with
  | nil => intro i acc; simp
  | cons l ls ih =>
    intro i acc
    by_cases h : top_k ≤ i
    · have h0 : top_k - i = 0 := by omega
      rw [h0, List.take_zero]
      simp only [load_glove_vectors_loop, if_pos h]
    · have hit : top_k - i = (top_k - (i + 1)) + 1 := by omega
      rw [hit, List.take_succ_cons]
      simp only [load_glove_vectors_loop, if_neg h]
      cases hp : parseLineE l with
      | error e => rfl
      | ok p =>
        dsimp only
        split
        · exact ih (i + 1) acc
        · exact ih (i + 1) (dictInsertQ acc p.1 p.2)

theorem load_loop_all_valid (top_k : Nat) (lines : List String) :
    ∀ i acc, i + lines.length ≤ top_k →
      (∀ l ∈ lines, lineIsValid l = true) →
      (∀ l ∈ lines, ∀ p ∈ acc, p.1 ≠ (lineEntry l).1) →
      ((lines.map (fun l => (lineEntry l).1)).Nodup) →
      load_glove_vectors_loop top_k lines i acc = .ok (acc ++ lines.map lineEntry) := by
  induction lines with
  | nil => intro i acc _ _ _ _; simp [load_glove_vectors_loop]
  | cons l ls ih =>
    intro i acc hbound hvalid hdisj hnodup
    have hi : ¬ top_k ≤ i := by simp at hbound; omega
    obtain ⟨w, v, hp, hlen, hent⟩ := lineIsValid_spec l (hvalid l (by simp))
    simp only [load_glove_vectors_loop, if_neg hi, hp]
    rw [if_neg (by simp [hlen])]
    have hw : ∀ p ∈ acc, p.1 ≠ w := by
      intro p hpmem
      have := hdisj l (by simp) p hpmem
      rwa [hent] at this
    rw [dictInsertQ_append acc w v hw]
    rw [List.map_cons, List.nodup_cons] at hnodup
    have step := ih (i + 1) (acc ++ [(w, v)]) (by simp at hbound ⊢; omega)
      (fun l' hl' => hvalid l' (by simp [hl']))
      (fun l' hl' p hpmem => by
        rcases List.mem_append.mp hpmem with h | h
        · exact hdisj l' (by simp [hl']) p h
        · simp only [List.mem_singleton] at h
          subst h
          intro hcontra
          apply hnodup.1
          rw [hent]
          dsimp only at hcontra ⊢
          rw [hcontra]
          exact List.mem_map_of_mem _ hl')
      hnodup.2
    rw [step]
    simp [hent]

theorem load_loop_error (top_k : Nat) (lines : List String) :
    ∀ i acc e, load_glove_vectors_loop top_k lines i acc = .error e →
      ∃ l ∈ lines.take (top_k - i), parseLineE l = .error e := by
  induction lines with
  | nil => intro i acc e h; cases h
  | cons l ls ih =>
    intro i acc e h
    simp only [load_glove_vectors_loop] at h
    by_cases hi : top_k ≤ i
    · rw [if_pos hi] at h; cases h
    · rw [if_neg hi] at h
      have hit : top_k - i = (top_k - (i + 1)) + 1 := by omega
      rw [hit, List.take_succ_cons]
      cases hp : parseLineE l with
      | error e' =>
        rw [hp] at h
        cases h
        exact ⟨l, by simp, hp⟩
      | ok p =>
        rw [hp] at h
        dsimp only at h
        split at h
        · obtain ⟨l', hl', hpe⟩ := ih (i + 1) acc e h
          exact ⟨l', by simp [hl'], hpe⟩
        · obtain ⟨l', hl', hpe⟩ := ih (i + 1) (dictInsertQ acc p.1 p.2) e h
          exact ⟨l', by simp [hl'], hpe⟩

/-! ## Claim theorems: vector source reducer -/

set_option maxRecDepth 1000000 in
/-- C3 counterexample: with cap 2, a corpus whose first line is malformed
(wrong component count) and whose remaining two lines are valid yields a
single-entry store — the malformed line consumed one of the two cap
slots — while the claim promises the first two valid lines. -/
theorem reduction_cap_counterexample :
    (["x 1 2", mkValidLine "aa", mkValidLine "bb"].filter lineIsValid).map lineEntry
        = [("aa", List.replicate 100 ((1 : ℕ) : ℚ)),
           ("bb", List.replicate 100 ((1 : ℕ) : ℚ))]
    ∧ load_glove_vectors ["x 1 2", mkValidLine "aa", mkValidLine "bb"] 2
        = .ok [("aa", List.replicate 100 ((1 : ℕ) : ℚ))]
    ∧ [("aa", List.replicate 100 ((1 : ℕ) : ℚ))]
        ≠ [("aa", List.replicate 100 ((1 : ℕ) : ℚ)),
           ("bb", List.replicate 100 ((1 : ℕ) : ℚ))] := by
  refine ⟨by rfl, by rfl, by simp⟩

/-- C3 (amended): the reducer examines only the first K corpus lines
(valid or not) — skipped malformed lines still consume cap slots — and
when every examined line is valid (with distinct words) the store holds
exactly those lines' entries in source order. -/
theorem reduction_cap_prefix :
    (∀ corpus top_k, load_glove_vectors corpus top_k
        = load_glove_vectors (corpus.take top_k) top_k)
    ∧ (∀ corpus top_k,
        (∀ l ∈ corpus.take top_k, lineIsValid l = true) →
        (((corpus.take top_k).map (fun l => (lineEntry l).1)).Nodup) →
        load_glove_vectors corpus top_k
          = .ok ((corpus.take top_k).map lineEntry)) := by
  constructor
  · intro corpus top_k
    rw [load_glove_vectors, load_glove_vectors, load_loop_take]
    simp
  · intro corpus top_k hvalid hnodup
    rw [load_glove_vectors, load_loop_take]
    simp only [Nat.sub_zero]
    rw [load_loop_all_valid top_k (corpus.take top_k) 0 []
      (by simpa using List.length_take_le top_k corpus) hvalid (by simp) hnodup]
    simp

set_option maxRecDepth 1000000 in
/-- C3 witness: a one-line corpus with cap 1. -/
theorem reduction_cap_prefix_witness :
    load_glove_vectors [mkValidLine "aa"] 1
      = .ok (([mkValidLine "aa"].take 1).map lineEntry) :=
  reduction_cap_prefix.2 [mkValidLine "aa"] 1 (by decide) (by simp)

set_option maxRecDepth 1000000 in
/-- C4 counterexample: the line `"aa bb"` has a non-numeric value token;
the reducer aborts with `ValueError` instead of skipping it and
continuing with the following valid line. -/
theorem malformed_line_aborts_counterexample :
    lineIsValid "aa bb" = false
    ∧ load_glove_vectors ["aa bb", mkValidLine "cc"] TOP_K_WORDS
        = .error .valueError := by
  refine ⟨by decide, by rfl⟩

/-- C4 (amended): wrong-component-count lines are skipped locally and the
run continues; the reducer aborts only when a line inside the examined
prefix fails to parse (non-numeric token or empty line), and any run whose
examined lines all parse returns a store. -/
theorem reducer_error_only_parse_failure :
    (∀ corpus top_k e, load_glove_vectors corpus top_k = .error e →
        ∃ l ∈ corpus.take top_k, parseLineE l = .error e)
    ∧ (∀ corpus top_k,
        (∀ l ∈ corpus.take top_k, ∃ p, parseLineE l = .ok p) →
        ∃ s, load_glove_vectors corpus top_k = .ok s) := by
  have herr : ∀ corpus top_k e, load_glove_vectors corpus top_k = .error e →
      ∃ l ∈ corpus.take top_k, parseLineE l = .error e := by
    intro corpus top_k e h
    rw [load_glove_vectors] at h
    simpa using load_loop_error top_k corpus 0 [] e h
  refine ⟨herr, fun corpus top_k hok => ?_⟩
  cases hload : load_glove_vectors corpus top_k with
  | ok s => exact ⟨s, rfl⟩
  | error e =>
    obtain ⟨l, hl, hpe⟩ := herr corpus top_k e hload
    obtain ⟨p, hp⟩ := hok l hl
    rw [hp] at hpe
    cases hpe

set_option maxRecDepth 1000000 in
/-- C4 witness: a corpus whose single examined line parses. -/
theorem reducer_error_only_parse_failure_witness :
    ∃ s, load_glove_vectors ["x 1 2"] 5 = .ok s :=
  reducer_error_only_parse_failure.2 ["x 1 2"] 5 (by
    intro l hl
    simp only [List.take_succ_cons, List.take_nil, List.mem_singleton] at hl
    subst hl
    exact ⟨("x", [((1 : ℕ) : ℚ), ((2 : ℕ) : ℚ)]), rfl⟩)

/-! ## Lemmas: byte streams -/

theorem take_append_ge (a b : List Nat) :
    ∀ m, a.length ≤ m → (a ++ b).take m = a ++ b.take (m - a.length) := by
  induction a with
  | nil => intro m _; simp
  | cons x xs ih =>
    intro m hm
    cases m with
    | zero => simp at hm
    | succ m' =>
      simp only [List.cons_append, List.take_succ_cons, List.length_cons]
      rw [ih m' (by simpa using hm), Nat.succ_sub_succ]

theorem u16le_length (n : Nat) : (u16le n).length = 2 := rfl

theorem u32le_length (n : Nat) : (u32le n).length = 4 := rfl

theorem vecBytes_length (v : List Nat) : (vecBytes v).length = 4 * v.length := by
  induction v with
  | nil => rfl
  | cons c cs ih => simp [vecBytes, u32le, ih]; omega

theorem qvecBytes_length (enc : ℚ → List Nat) (henc : ∀ q, (enc q).length = 4)
    (e : List ℚ) : (qvecBytes enc e).length = 4 * e.length := by
  induction e with
  | nil => rfl
  | cons q qs ih => simp [qvecBytes, henc, ih]; omega

theorem unpack_u16_u16le (n : Nat) (h : n ≤ 65535) :
    unpack_u16 (u16le n) = .ok n := by
  simp only [u16le, unpack_u16]
  congr 1
  omega

theorem unpack_u32_u32le (n : Nat) (h : n < 4294967296) :
    unpack_u32 (u32le n) = .ok n := by
  simp only [u32le, unpack_u32]
  congr 1
  omega

theorem unpack_u16_not2 (x : List Nat) (h : x.length ≠ 2) :
    unpack_u16 x = .error .structError := by
  match x with
  | [] => rfl
  | [_] => rfl
  | [_, _] => simp at h
  | _ :: _ :: _ :: _ => rfl

theorem unpack_u32_not4 (x : List Nat) (h : x.length ≠ 4) :
    unpack_u32 x = .error .structError := by
  match x with
  | [] => rfl
  | [_] => rfl
  | [_, _] => rfl
  | [_, _, _] => rfl
  | [_, _, _, _] => simp at h
  | _ :: _ :: _ :: _ :: _ :: _ => rfl

theorem parseF32s_cons (c : Nat) (rest : List Nat) :
    parseF32s (u32le c ++ rest)
      = (c % 256 + 256 * (c / 256 % 256
          + 256 * (c / 65536 % 256 + 256 * (c / 16777216 % 256)))) :: parseF32s rest :=
  rfl

theorem parseF32s_vecBytes (v : List Nat) (h : ∀ c ∈ v, c < 4294967296) :
    parseF32s (vecBytes v) = v := by
  induction v with
  | nil => rfl
  | cons c cs ih =>
    have hc : c < 4294967296 := h c (by simp)
    show parseF32s (u32le c ++ vecBytes cs) = c :: cs
    rw [parseF32s_cons, ih (fun x hx => h x (by simp [hx]))]
    congr 1
    omega

theorem fread_exact (s : List Nat) (pos n : Nat) (chunk tail : List Nat)
    (hlen : chunk.length = n) (h : s.drop pos = chunk ++ tail) :
    fread s pos n = (chunk, pos + n) ∧ s.drop (pos + n) = tail := by
  have h1 : (s.drop pos).take n = chunk := by rw [h, List.take_left' hlen]
  constructor
  · rw [fread, h1, hlen]
  · rw [← List.drop_drop, h, List.drop_left' hlen]

theorem fread_rest (s : List Nat) (pos n : Nat) (chunk : List Nat)
    (hlen : chunk.length ≤ n) (h : s.drop pos = chunk) :
    fread s pos n = (chunk, pos + chunk.length)
      ∧ s.drop (pos + chunk.length) = [] := by
  have h1 : (s.drop pos).take n = chunk := by rw [h, List.take_of_length_le hlen]
  constructor
  · rw [fread, h1]
  · rw [← List.drop_drop, h, List.drop_eq_nil_of_le le_rfl]

/-! ## Lemmas: vector-store serialization -/

theorem packEntry_ok (e : BinEntry) (h : WFEntry e) :
    packEntry e = .ok (entryBytesRaw e) := by
  obtain ⟨_, hwl, hvl, _⟩ := h
  rw [packEntry, pack_u16, if_pos hwl, pack_f32x100, if_pos hvl, entryBytesRaw]

theorem packEntries_ok (store : List BinEntry) (h : ∀ e ∈ store, WFEntry e) :
    packEntries store = .ok (entriesBytes store) := by
  induction store with
  | nil => rfl
  | cons e es ih =>
    rw [packEntries, packEntry_ok e (h e (by simp)),
      ih (fun x hx => h x (by simp [hx])), entriesBytes]

theorem save_binary_format_ok (store : List BinEntry) (h : WFStore store) :
    save_binary_format store = .ok (storeBytes store) := by
  obtain ⟨hent, _, hlen⟩ := h
  rw [save_binary_format, pack_u32, if_pos hlen, packEntries_ok store hent,
    storeBytes]

theorem packEntry_ok_word_le (e : BinEntry) (b : List Nat)
    (h : packEntry e = .ok b) : e.word.length ≤ 65535 := by
  rw [packEntry] at h
  by_cases hw : e.word.length ≤ 65535
  · exact hw
  · rw [pack_u16, if_neg hw] at h
    cases h

theorem packEntries_ok_all (store : List BinEntry) :
    ∀ b, packEntries store = .ok b →
      ∀ e ∈ store, ∃ be, packEntry e = .ok be := by
  induction store with
  | nil => intro b _ e he; simp at he
  | cons x xs ih =>
    intro b h e he
    rw [packEntries] at h
    cases hx : packEntry x with
    | error err => rw [hx] at h; cases h
    | ok bx =>
      rw [hx] at h
      cases hxs : packEntries xs with
      | error err => rw [hxs] at h; cases h
      | ok bxs =>
        rcases List.mem_cons.mp he with rfl | hmem
        · exact ⟨bx, hx⟩
        · exact ih bxs hxs e hmem

/-! ## Claim theorem: serialization totality boundary -/

/-- C9: serialization is total only on the guaranteed domain — a store
containing a word whose UTF-8 encoding exceeds 65535 bytes makes
`save_binary_format` fail (the `u16` length field cannot be written)
rather than return a byte stream. -/
theorem save_rejects_long_word (store : List BinEntry)
    (h : ∃ e ∈ store, 65535 < e.word.length) :
    ∃ err, save_binary_format store = .error err := by
  obtain ⟨e, hmem, hlong⟩ := h
  cases hs : save_binary_format store with
  | error err => exact ⟨err, rfl⟩
  | ok bytes =>
    exfalso
    rw [save_binary_format] at hs
    cases hh : pack_u32 store.length with
    | error err => rw [hh] at hs; cases hs
    | ok hdr =>
      rw [hh] at hs
      cases hb : packEntries store with
      | error err => rw [hb] at hs; cases hs
      | ok body =>
        obtain ⟨be, hbe⟩ := packEntries_ok_all store body hb e hmem
        exact absurd (packEntry_ok_word_le e be hbe) (by omega)

/-- C9 witness: a store with a 65536-byte word. -/
theorem save_rejects_long_word_witness :
    ∃ err, save_binary_format [⟨List.replicate 65536 97, List.replicate 100 0⟩]
      = .error err :=
  save_rejects_long_word _
    ⟨⟨List.replicate 65536 97, List.replicate 100 0⟩, List.mem_singleton.mpr rfl,
      by rw [List.length_replicate]; omega⟩

/-! ## Lemmas: vector-store deserialization (round trip) -/

theorem entryBytesRaw_length (e : BinEntry) (hvl : e.vec.length = VECTOR_DIM) :
    (entryBytesRaw e).length = 2 + e.word.length + VECTOR_DIM * 4 := by
  simp only [entryBytesRaw, List.length_append, u16le_length, vecBytes_length, hvl]
  omega

theorem readRecord_ok (e : BinEntry) (s : List Nat) (pos : Nat) (tail : List Nat)
    (h : WFEntry e) (hs : s.drop pos = entryBytesRaw e ++ tail) :
    readRecord s pos = .ok (e, pos + 2 + e.word.length + VECTOR_DIM * 4)
      ∧ s.drop (pos + 2 + e.word.length + VECTOR_DIM * 4) = tail := by
  obtain ⟨hutf, hwl, hvl, hvc⟩ := h
  have hvblen : (vecBytes e.vec).length = VECTOR_DIM * 4 := by
    rw [vecBytes_length, hvl]; omega
  have hs1 : s.drop pos
      = u16le e.word.length ++ (e.word ++ (vecBytes e.vec ++ tail)) := by
    rw [hs, entryBytesRaw]
    simp [List.append_assoc]
  obtain ⟨hf1, hd1⟩ := fread_exact s pos 2 (u16le e.word.length) _ (u16le_length _) hs1
  obtain ⟨hf2, hd2⟩ := fread_exact s (pos + 2) e.word.length e.word _ rfl hd1
  obtain ⟨hf3, hd3⟩ := fread_exact s (pos + 2 + e.word.length) (VECTOR_DIM * 4)
    (vecBytes e.vec) tail hvblen hd2
  refine ⟨?_, hd3⟩
  rw [readRecord, hf1]
  dsimp only
  rw [unpack_u16_u16le _ hwl]
  dsimp only
  rw [hf2]
  dsimp only
  rw [pyDecodeUtf8, if_pos hutf]
  dsimp only
  rw [hf3]
  dsimp only
  rw [unpack_f32x100, if_pos hvblen, parseF32s_vecBytes e.vec hvc]

theorem loadRecords_ok (entries : List BinEntry) :
    ∀ s pos acc tail, (∀ e ∈ entries, WFEntry e) →
      s.drop pos = entriesBytes entries ++ tail →
      loadRecords s pos entries.length acc
        = .ok (entries.foldl (fun a e => dictInsert a e.word e.vec) acc) := by
  induction entries with
  | nil => intro s pos acc tail _ _; rfl
  | cons e es ih =>
    intro s pos acc tail hwf hs
    have hs2 : s.drop pos = entryBytesRaw e ++ (entriesBytes es ++ tail) := by
      rw [hs, entriesBytes, List.append_assoc]
    obtain ⟨hr, hd⟩ := readRecord_ok e s pos _ (hwf e (by simp)) hs2
    simp only [List.length_cons, loadRecords, hr, List.foldl_cons]
    exact ih s _ (dictInsert acc e.word e.vec) tail
      (fun x hx => hwf x (by simp [hx])) hd

theorem dictInsert_fresh (acc : List BinEntry) (w v : List Nat)
    (h : ∀ p ∈ acc, p.word ≠ w) :
    dictInsert acc w v = acc ++ [⟨w, v⟩] := by
  induction acc with
  | nil => rfl
  | cons p ps ih =>
    rw [dictInsert, if_neg (h p (by simp)), ih (fun q hq => h q (by simp [hq]))]
    rfl

theorem foldl_dictInsert (entries : List BinEntry) :
    ∀ acc, ((entries.map (·.word)).Nodup) →
      (∀ e ∈ entries, ∀ p ∈ acc, p.word ≠ e.word) →
      entries.foldl (fun a e => dictInsert a e.word e.vec) acc = acc ++ entries := by
  induction entries with
  | nil => intro acc _ _; simp
  | cons e es ih =>
    intro acc hnodup hdisj
    rw [List.map_cons, List.nodup_cons] at hnodup
    rw [List.foldl_cons,
      dictInsert_fresh acc e.word e.vec (fun p hp => hdisj e (by simp) p hp)]
    have hstep := ih (acc ++ [⟨e.word, e.vec⟩]) hnodup.2 (by
      intro e' he' p hp
      rcases List.mem_append.mp hp with h | h
      · exact hdisj e' (by simp [he']) p h
      · simp only [List.mem_singleton] at h
        subst h
        intro hcontra
        apply hnodup.1
        dsimp only at hcontra
        rw [hcontra]
        exact List.mem_map_of_mem _ he')
    rw [hstep]
    have heta : (⟨e.word, e.vec⟩ : BinEntry) = e := rfl
    rw [heta]
    simp

/-! ## Claim theorem: vector-store round trip -/

/-- C2: for every wellformed vector store (valid UTF-8 words of at most
65535 bytes, distinct, 100-component vectors, vocabulary fitting the u32
header), serialization succeeds and deserializing the produced byte
stream returns a store equal to the original — same words, same vectors,
same order. -/
theorem glove_roundtrip (store : List BinEntry) (h : WFStore store) :
    save_binary_format store = .ok (storeBytes store)
    ∧ load_glove_binary (storeBytes store) = .ok store := by
  refine ⟨save_binary_format_ok store h, ?_⟩
  obtain ⟨hent, hnodup, hlen⟩ := h
  have h0 : (storeBytes store).drop 0
      = u32le store.length ++ entriesBytes store := by
    rw [List.drop_zero, storeBytes]
  obtain ⟨hf, hd⟩ := fread_exact (storeBytes store) 0 4 (u32le store.length) _
    (u32le_length _) h0
  rw [load_glove_binary, hf]
  dsimp only
  rw [unpack_u32_u32le _ hlen]
  dsimp only
  have hd2 : (storeBytes store).drop (0 + 4) = entriesBytes store ++ [] := by
    rw [hd, List.append_nil]
  rw [loadRecords_ok store _ _ [] [] hent hd2,
    foldl_dictInsert store [] hnodup (by simp)]
  rfl

/-- C2 witness: a one-word store round-trips. -/
theorem glove_roundtrip_witness :
    save_binary_format [⟨[97, 98], List.replicate 100 0⟩]
        = .ok (storeBytes [⟨[97, 98], List.replicate 100 0⟩])
    ∧ load_glove_binary (storeBytes [⟨[97, 98], List.replicate 100 0⟩])
        = .ok [⟨[97, 98], List.replicate 100 0⟩] :=
  glove_roundtrip _ (by
    refine ⟨?_, by simp, by simp⟩
    intro e he
    simp only [List.mem_singleton] at he
    subst he
    refine ⟨by decide, by decide, by simp [VECTOR_DIM], ?_⟩
    intro c hc
    rw [List.eq_of_mem_replicate hc]
    decide)

/-! ## Lemmas: deserialization of truncated streams -/

theorem readRecord_truncated (e : BinEntry) (s : List Nat) (pos m : Nat)
    (h : WFEntry e) (hm : m < 2 + e.word.length + VECTOR_DIM * 4)
    (hs : s.drop pos = (entryBytesRaw e).take m) :
    ∃ err, readRecord s pos = .error err := by
  obtain ⟨hutf, hwl, hvl, hvc⟩ := h
  have hvblen : (vecBytes e.vec).length = VECTOR_DIM * 4 := by
    rw [vecBytes_length, hvl]; omega
  have hEL : (entryBytesRaw e).length = 2 + e.word.length + VECTOR_DIM * 4 :=
    entryBytesRaw_length e hvl
  by_cases hm2 : m < 2
  · have hlen1 : ((entryBytesRaw e).take m).length = m := by
      rw [List.length_take]; omega
    obtain ⟨hf, _⟩ := fread_rest s pos 2 ((entryBytesRaw e).take m)
      (by omega) hs
    refine ⟨.structError, ?_⟩
    rw [readRecord, hf]
    dsimp only
    rw [unpack_u16_not2 _ (by omega)]
  · push_neg at hm2
    have hsplit : (entryBytesRaw e).take m
        = u16le e.word.length ++ ((e.word ++ vecBytes e.vec).take (m - 2)) := by
      rw [entryBytesRaw, List.append_assoc,
        take_append_ge (u16le e.word.length) _ m (by rw [u16le_length]; omega),
        u16le_length]
    have hs2 : s.drop pos
        = u16le e.word.length ++ ((e.word ++ vecBytes e.vec).take (m - 2)) := by
      rw [hs, hsplit]
    obtain ⟨hf1, hd1⟩ := fread_exact s pos 2 (u16le e.word.length) _
      (u16le_length _) hs2
    by_cases hrw : m - 2 < e.word.length
    · have htk : (e.word ++ vecBytes e.vec).take (m - 2) = e.word.take (m - 2) :=
        List.take_append_of_le_length (by omega)
      have hlen2 : (e.word.take (m - 2)).length = m - 2 := by
        rw [List.length_take]; omega
      obtain ⟨hf2, hd2⟩ := fread_rest s (pos + 2) e.word.length
        (e.word.take (m - 2)) (by omega) (by rw [hd1, htk])
      cases hu : utf8Valid (e.word.take (m - 2)) with
      | false =>
        refine ⟨.unicodeError, ?_⟩
        rw [readRecord, hf1]
        dsimp only
        rw [unpack_u16_u16le _ hwl]
        dsimp only
        rw [hf2]
        dsimp only
        rw [pyDecodeUtf8, hu, if_neg (by simp)]
      | true =>
        refine ⟨.structError, ?_⟩
        rw [readRecord, hf1]
        dsimp only
        rw [unpack_u16_u16le _ hwl]
        dsimp only
        rw [hf2]
        dsimp only
        rw [pyDecodeUtf8, if_pos hu]
        dsimp only
        have hf3 : fread s (pos + 2 + (e.word.take (m - 2)).length)
            (VECTOR_DIM * 4) = ([], pos + 2 + (e.word.take (m - 2)).length) := by
          rw [fread, hd2]
          simp
        rw [hf3]
        dsimp only
        rw [unpack_f32x100, if_neg (by decide)]
    · push_neg at hrw
      have htk : (e.word ++ vecBytes e.vec).take (m - 2)
          = e.word ++ ((vecBytes e.vec).take (m - 2 - e.word.length)) :=
        take_append_ge _ _ _ hrw
      obtain ⟨hf2, hd2⟩ := fread_exact s (pos + 2) e.word.length e.word _ rfl
        (by rw [hd1, htk])
      have hlen3 : ((vecBytes e.vec).take (m - 2 - e.word.length)).length
          = m - 2 - e.word.length := by
        rw [List.length_take]; omega
      obtain ⟨hf3, hd3⟩ := fread_rest s (pos + 2 + e.word.length)
        (VECTOR_DIM * 4) ((vecBytes e.vec).take (m - 2 - e.word.length))
        (by omega) hd2
      refine ⟨.structError, ?_⟩
      rw [readRecord, hf1]
      dsimp only
      rw [unpack_u16_u16le _ hwl]
      dsimp only
      rw [hf2]
      dsimp only
      rw [pyDecodeUtf8, if_pos hutf]
      dsimp only
      rw [hf3]
      dsimp only
      rw [unpack_f32x100, if_neg (by rw [hlen3]; omega)]

theorem loadRecords_truncated (entries : List BinEntry) :
    ∀ s pos acc m, (∀ e ∈ entries, WFEntry e) →
      m < (entriesBytes entries).length →
      s.drop pos = (entriesBytes entries).take m →
      ∃ err, loadRecords s pos entries.length acc = .error err := by
  induction entries with
  | nil => intro s pos acc m _ hm _; simp [entriesBytes] at hm
  | cons e es ih =>
    intro s pos acc m hwf hm hs
    obtain ⟨hutf, hwl, hvl, hvc⟩ := hwf e (by simp)
    have hEL : (entryBytesRaw e).length = 2 + e.word.length + VECTOR_DIM * 4 :=
      entryBytesRaw_length e hvl
    rw [entriesBytes, List.length_append] at hm
    by_cases hml : m < (entryBytesRaw e).length
    · have hsplit : (entriesBytes (e :: es)).take m = (entryBytesRaw e).take m := by
        rw [entriesBytes]
        exact List.take_append_of_le_length (by omega)
      obtain ⟨err, herr⟩ := readRecord_truncated e s pos m (hwf e (by simp))
        (by omega) (by rw [hs, hsplit])
      refine ⟨err, ?_⟩
      simp only [List.length_cons, loadRecords, herr]
    · push_neg at hml
      have hsplit : (entriesBytes (e :: es)).take m
          = entryBytesRaw e ++ ((entriesBytes es).take (m - (entryBytesRaw e).length)) := by
        rw [entriesBytes]
        exact take_append_ge _ _ m hml
      obtain ⟨hr, hd⟩ := readRecord_ok e s pos _ (hwf e (by simp))
        (by rw [hs, hsplit])
      obtain ⟨err, herr⟩ := ih s (pos + 2 + e.word.length + VECTOR_DIM * 4)
        (dictInsert acc e.word e.vec) (m - (entryBytesRaw e).length)
        (fun x hx => hwf x (by simp [hx])) (by omega) hd
      refine ⟨err, ?_⟩
      simp only [List.length_cons, loadRecords, hr]
      exact herr

/-! ## Claim theorems: deserialization failure modes -/

/-- C8 counterexample: the stream declares one record with word length 4
but ends after a single byte `0xC3`; this is a truncation, yet the code
fails with a Unicode (encoding) error — not a format error — because the
short word read yields invalid UTF-8 bytes; no byte offset is attached to
either error. -/
theorem load_truncation_error_kind_counterexample :
    load_glove_binary [1, 0, 0, 0, 4, 0, 195] = .error .unicodeError
    ∧ LoadBinErr.unicodeError ≠ LoadBinErr.structError := by
  exact ⟨rfl, by simp⟩

/-- C8 (amended): deserializing any strict prefix of a wellformed store's
serialization fails with an error rather than returning a store (a format
error when a fixed-width field cannot be filled, possibly an encoding
error when a truncated word's bytes are invalid UTF-8), and a full-length
word whose bytes are not valid UTF-8 fails with an encoding error; errors
propagate to the caller without a byte offset. -/
theorem load_truncated_or_invalid_fails :
    (∀ store, WFStore store → ∀ k, k < (storeBytes store).length →
        ∃ err, load_glove_binary ((storeBytes store).take k) = .error err)
    ∧ (∀ w vb : List Nat, utf8Valid w = false → w.length ≤ 65535 →
        load_glove_binary (u32le 1 ++ (u16le w.length ++ (w ++ vb)))
          = .error .unicodeError) := by
  constructor
  · intro store hst k hk
    obtain ⟨hent, hnodup, hlen⟩ := hst
    by_cases hk4 : k < 4
    · have hlen1 : ((storeBytes store).take k).length = k := by
        rw [List.length_take]; omega
      obtain ⟨hf, _⟩ := fread_rest ((storeBytes store).take k) 0 4
        ((storeBytes store).take k) (by omega) (List.drop_zero _)
      refine ⟨.structError, ?_⟩
      rw [load_glove_binary, hf]
      dsimp only
      rw [unpack_u32_not4 _ (by omega)]
    · push_neg at hk4
      have hlenSB : (storeBytes store).length = 4 + (entriesBytes store).length := by
        simp [storeBytes, u32le]
        omega
      have hsplit : (storeBytes store).take k
          = u32le store.length ++ ((entriesBytes store).take (k - 4)) := by
        rw [storeBytes, take_append_ge _ _ k (by rw [u32le_length]; omega),
          u32le_length]
      obtain ⟨hf, hd⟩ := fread_exact ((storeBytes store).take k) 0 4
        (u32le store.length) _ (u32le_length _) (by rw [List.drop_zero, hsplit])
      obtain ⟨err, herr⟩ := loadRecords_truncated store ((storeBytes store).take k)
        (0 + 4) [] (k - 4) hent (by omega) hd
      refine ⟨err, ?_⟩
      rw [load_glove_binary, hf]
      dsimp only
      rw [unpack_u32_u32le _ hlen]
      dsimp only
      exact herr
  · intro w vb hw hwl
    have h0 : (u32le 1 ++ (u16le w.length ++ (w ++ vb))).drop 0
        = u32le 1 ++ (u16le w.length ++ (w ++ vb)) := List.drop_zero _
    obtain ⟨hf, hd⟩ := fread_exact (u32le 1 ++ (u16le w.length ++ (w ++ vb))) 0 4
      (u32le 1) _ (u32le_length _) h0
    obtain ⟨hf1, hd1⟩ := fread_exact (u32le 1 ++ (u16le w.length ++ (w ++ vb)))
      (0 + 4) 2 (u16le w.length) _ (u16le_length _) hd
    obtain ⟨hf2, hd2⟩ := fread_exact (u32le 1 ++ (u16le w.length ++ (w ++ vb)))
      (0 + 4 + 2) w.length w vb rfl hd1
    rw [load_glove_binary, hf]
    dsimp only
    rw [unpack_u32_u32le 1 (by omega)]
    dsimp only
    show loadRecords _ (0 + 4) (0 + 1) [] = _
    rw [loadRecords, readRecord, hf1]
    dsimp only
    rw [unpack_u16_u16le _ hwl]
    dsimp only
    rw [hf2]
    dsimp only
    rw [pyDecodeUtf8, hw, if_neg (by simp)]

/-- C8 witness: part 2 instantiated at a concrete invalid-UTF-8 word. -/
theorem load_truncated_or_invalid_fails_witness :
    load_glove_binary (u32le 1 ++ (u16le ([195, 195] : List Nat).length
        ++ ([195, 195] ++ List.replicate 400 (0 : Nat))))
      = .error .unicodeError :=
  load_truncated_or_invalid_fails.2 [195, 195] (List.replicate 400 0)
    (by decide) (by decide)

/-! ## Lemmas: embedding table generation and serialization -/

theorem main_embeddings_eq (cmds : List CommandRecord)
    (wv : List (String × List ℚ)) :
    main_embeddings cmds wv = cmds.map (fun c => compute_embedding c wv) := by
  have gen : ∀ (l : List CommandRecord) (acc : List (List ℚ)),
      l.foldl (fun acc c => acc ++ [compute_embedding c wv]) acc
        = acc ++ l.map (fun c => compute_embedding c wv) := by
    intro l
    induction l with
    | nil => intro acc; simp
    | cons c cs ih => intro acc; simp [ih, List.append_assoc]
  rw [main_embeddings, gen]
  simp

theorem getD_map_of_lt {α β : Type} (f : α → β) (l : List α) (d : α) (d' : β)
    (i : Nat) (h : i < l.length) : (l.map f).getD i d' = f (l.getD i d) := by
  rw [List.getD_eq_getElem?_getD, List.getElem?_map, List.getElem?_eq_getElem h,
    List.getD_eq_getElem?_getD, List.getElem?_eq_getElem h]
  rfl

theorem packEmbList_ok (enc : ℚ → List Nat) (embs : List (List ℚ))
    (h : ∀ e ∈ embs, e.length = VECTOR_DIM) :
    packEmbList enc embs = .ok (embsBytes enc embs) := by
  induction embs with
  | nil => rfl
  | cons e es ih =>
    rw [packEmbList, pack_qvec, if_pos (h e (by simp)),
      ih (fun x hx => h x (by simp [hx])), embsBytes]

theorem embsBytes_block (enc : ℚ → List Nat) (henc : ∀ q, (enc q).length = 4)
    (embs : List (List ℚ)) :
    ∀ i, i < embs.length → (∀ e ∈ embs, e.length = VECTOR_DIM) →
      ((embsBytes enc embs).drop (VECTOR_DIM * 4 * i)).take (VECTOR_DIM * 4)
        = qvecBytes enc (embs.getD i []) := by
  induction embs with
  | nil => intro i hi _; simp at hi
  | cons e es ih =>
    intro i hi hlen
    have hb : (qvecBytes enc e).length = VECTOR_DIM * 4 := by
      rw [qvecBytes_length enc henc, hlen e (by simp)]
      omega
    cases i with
    | zero =>
      simp only [Nat.mul_zero, List.drop_zero, List.getD_cons_zero, embsBytes]
      exact List.take_left' hb
    | succ i' =>
      have hsplit : VECTOR_DIM * 4 * (i' + 1)
          = (qvecBytes enc e).length + VECTOR_DIM * 4 * i' := by
        rw [hb]; ring
      rw [embsBytes, hsplit, ← List.drop_drop, List.drop_left,
        List.getD_cons_succ]
      exact ih i' (by simpa using hi) (fun x hx => hlen x (by simp [hx]))

/-! ## Claim theorem: positional correspondence of the embedding table -/

/-- C5: a generation run over N records produces exactly N embeddings,
the i-th embedding is computed from the i-th record, the serialized
header's count field is N, and the i-th serialized 400-byte block is the
encoding of the i-th record's embedding — positional correspondence is
preserved through computation and serialization. -/
theorem embedding_table_positional (cmds : List CommandRecord)
    (wv : List (String × List ℚ)) (enc : ℚ → List Nat)
    (henc : ∀ q, (enc q).length = 4) (hN : cmds.length < 4294967296) :
    (main_embeddings cmds wv).length = cmds.length
    ∧ (∀ i, i < cmds.length → (main_embeddings cmds wv).getD i []
          = compute_embedding (cmds.getD i ⟨none, none, none⟩) wv)
    ∧ save_embeddings enc (main_embeddings cmds wv)
        = .ok (u32le cmds.length ++ u32le VECTOR_DIM
            ++ embsBytes enc (main_embeddings cmds wv))
    ∧ (∀ i, i < cmds.length →
        (((u32le cmds.length ++ u32le VECTOR_DIM
            ++ embsBytes enc (main_embeddings cmds wv)).drop
              (8 + VECTOR_DIM * 4 * i)).take (VECTOR_DIM * 4))
          = qvecBytes enc (compute_embedding (cmds.getD i ⟨none, none, none⟩) wv)) := by
  have hmain : main_embeddings cmds wv
      = cmds.map (fun c => compute_embedding c wv) := main_embeddings_eq cmds wv
  have hlen : (main_embeddings cmds wv).length = cmds.length := by
    rw [hmain, List.length_map]
  have hgetD : ∀ i, i < cmds.length → (main_embeddings cmds wv).getD i []
      = compute_embedding (cmds.getD i ⟨none, none, none⟩) wv := by
    intro i hi
    rw [hmain, getD_map_of_lt _ cmds ⟨none, none, none⟩ [] i hi]
  have hall : ∀ e ∈ main_embeddings cmds wv, e.length = VECTOR_DIM := by
    intro e he
    rw [hmain] at he
    obtain ⟨c, _, rfl⟩ := List.mem_map.mp he
    exact compute_embedding_length c wv
  have hsave : save_embeddings enc (main_embeddings cmds wv)
      = .ok (u32le cmds.length ++ u32le VECTOR_DIM
          ++ embsBytes enc (main_embeddings cmds wv)) := by
    rw [save_embeddings, hlen, pack_u32, if_pos hN, pack_u32,
      if_pos (by decide), packEmbList_ok enc _ hall]
  refine ⟨hlen, hgetD, hsave, ?_⟩
  intro i hi
  have h8 : (u32le cmds.length ++ u32le VECTOR_DIM).length = 8 := by
    simp [u32le]
  rw [← List.drop_drop, List.drop_left' h8]
  rw [embsBytes_block enc henc _ i (by rw [hlen]; exact hi) hall, hgetD i hi]

/-- C5 witness: the serialization equation instantiated on a one-record
run with a constant f32 encoding. -/
theorem embedding_table_positional_witness :
    save_embeddings (fun _ : ℚ => [0, 0, 0, 0])
        (main_embeddings [⟨some "ab", none, none⟩] [])
      = .ok (u32le ([(⟨some "ab", none, none⟩ : CommandRecord)] : List CommandRecord).length
          ++ u32le VECTOR_DIM
          ++ embsBytes (fun _ : ℚ => [0, 0, 0, 0])
              (main_embeddings [⟨some "ab", none, none⟩] [])) :=
  (embedding_table_positional [⟨some "ab", none, none⟩] [] (fun _ => [0, 0, 0, 0])
    (fun _ => rfl) (by decide)).2.2.1

end WTF
